import Mathlib

/-!
Verification of the cargo-qp utility (src/main.rs).

The tool walks a work tree, selects Rust source files and manifests,
labels each selected file with its owning package (name, version), and
concatenates header-plus-content sections into one text blob delivered
to the clipboard or standard output.

Shallow embedding conventions:
* A filesystem path is a list of components (`List String`); the
  filesystem root `/` is `[]`, and `Path::parent` is `List.dropLast`
  (undefined only for the root, handled explicitly as in the source).
* External collaborators (cargo-metadata, manifest parsing, the
  gitignore-aware walker, file reading, the clipboard) are inputs in an
  `Env` record; the in-repo logic over those inputs is translated
  line by line from src/main.rs.
* Fallible Rust code returning `Result` becomes `Except String`.
-/

namespace CargoQp

/-- Filesystem path as a list of components; `[]` is the filesystem root. -/
abbrev Path := List String

/-- Embedding of Rust `Path::starts_with` (componentwise prefix test),
used by `crate_for_path` (src/main.rs line 178). -/
def startsWith : Path → Path → Bool
  | [], _ => true
  | _ :: _, [] => false
  | a :: as_, b :: bs => a == b && startsWith as_ bs

/-- Embedding of `cargo_toml::Inheritable<String>`: an explicitly set
value or a value inherited from the workspace. -/
inductive Inheritable where
  | set (s : String)
  | inherited
deriving DecidableEq

/-- Embedding of `fmt_ver` (src/main.rs lines 166-171). -/
def fmt_ver : Inheritable → String
  | Inheritable.set s => s
  | Inheritable.inherited => "<workspace>"

/-- The `[package]` section of a parsed manifest: name plus a version
that may be workspace-inherited. -/
structure Package where
  name : String
  version : Inheritable
deriving DecidableEq

/-- Manifest-reading collaborator: for a directory, whether
`dir/Cargo.toml` exists, and the result of `Manifest::from_path` on it
(a parse error, or a manifest whose `package` section is optional). -/
structure ManifestFS where
  maniExists : Path → Bool
  parseManifest : Path → Except String (Option Package)

/-- One package reported by `cargo metadata`: the directory holding its
manifest (the `manifest_path` parent, src/main.rs lines 143-148), its
name and its rendered version. -/
structure WsPkg where
  dir : Path
  name : String
  version : String
deriving DecidableEq

/-- Embedding of `CrateMap` (src/main.rs line 28): association list
from crate-root directory to (name, version); keys are unique. -/
abbrev CrateMap := List (Path × String × String)

/-- Embedding of `HashMap::contains_key` on a `CrateMap`. -/
def containsKey (m : CrateMap) (k : Path) : Bool :=
  m.any (fun e => e.1 == k)

/-- Embedding of `HashMap::insert`: replace the value at an existing
key, else add the binding. -/
def mapInsert (m : CrateMap) (k : Path) (v : String × String) : CrateMap :=
  if containsKey m k then
    m.map (fun e => if e.1 == k then (k, v) else e)
  else
    (k, v) :: m

/-- Part (a) of `crate_map` (src/main.rs lines 137-151): insert every
workspace package reported by cargo-metadata; a metadata failure is
swallowed (`if let Ok(md)`) and yields the empty map. -/
def wsMap (ws : Except String (List WsPkg)) : CrateMap :=
  match ws with
  | Except.ok pkgs => pkgs.foldl (fun m pk => mapInsert m pk.dir (pk.name, pk.version)) []
  | Except.error _ => []

/-- The map built by `crate_map` (src/main.rs lines 134-162): workspace
packages, then — when the root is not already a key and a root manifest
exists — the root package from single-package parsing; a parse failure
or a missing package section is swallowed (`if let Ok(mani)`). -/
def crate_map_build (ws : Except String (List WsPkg)) (fs : ManifestFS) (root : Path) : CrateMap :=
  let map := wsMap ws
  if !(containsKey map root) && fs.maniExists root then
    match fs.parseManifest root with
    | Except.ok (some pkg) => mapInsert map root (pkg.name, fmt_ver pkg.version)
    | _ => map
  else map

/-- Embedding of `crate_map` (src/main.rs lines 134-163): the function
has a `Result` return type but every internal failure is swallowed, so
it always returns `Ok`. -/
def crate_map (ws : Except String (List WsPkg)) (fs : ManifestFS) (root : Path) : Except String CrateMap :=
  Except.ok (crate_map_build ws fs root)

/-- The single manifest probe done at each level of the upward climb in
`crate_for_path` (src/main.rs lines 185-192): a package is produced only
when the manifest file exists, parses, and has a `[package]` section;
otherwise the climb continues. -/
def manifestPackageAt (fs : ManifestFS) (dir : Path) : Option (String × String) :=
  if fs.maniExists dir then
    match fs.parseManifest dir with
    | Except.ok (some pkg) => some (pkg.name, fmt_ver pkg.version)
    | _ => none
  else none

/-- The upward climb of `crate_for_path` (src/main.rs lines 183-195):
check the current directory, then move to its parent; stop after the
filesystem root. -/
def nearestManifest (fs : ManifestFS) (dir : Path) : Option (String × String) :=
  match manifestPackageAt fs dir with
  | some r => some r
  | none => if h : dir = [] then none else nearestManifest fs dir.dropLast
termination_by dir.length
decreasing_by
  simp only [List.length_dropLast]
  have h1 : 0 < dir.length := List.length_pos.mpr h
  omega

/-- Fuel-bounded variant of the upward climb, used to state that the
climb terminates within the depth of the starting directory. -/
def nearestManifestF (fs : ManifestFS) : Nat → Path → Option (String × String)
  | 0, _ => none
  | Nat.succ n, dir =>
    match manifestPackageAt fs dir with
    | some r => some r
    | none => if dir = [] then none else nearestManifestF fs n dir.dropLast

/-- Embedding of `Iterator::max_by_key` on crate-root component count
(src/main.rs line 179); on ties the later element wins, as documented
for `max_by_key`. -/
def maxByDepth : List (Path × String × String) → Option (Path × String × String)
  | [] => none
  | e :: rest =>
    match maxByDepth rest with
    | none => some e
    | some f => if f.1.length ≥ e.1.length then some f else some e

/-- Embedding of `crate_for_path` (src/main.rs lines 175-197):
longest-prefix match against crate roots, else a climb upward from the
file's parent looking for the nearest manifest with a package section. -/
def crate_for_path (p : Path) (crates : CrateMap) (fs : ManifestFS) : Option (String × String) :=
  match maxByDepth (crates.filter (fun e => startsWith e.1 p)) with
  | some e => some e.2
  | none =>
    match p with
    | [] => none
    | _ :: _ => nearestManifest fs p.dropLast

/-- Fuel-bounded variant of `crate_for_path` whose climb burns one fuel
unit per directory level. -/
def crate_for_pathF (p : Path) (crates : CrateMap) (fs : ManifestFS) (fuel : Nat) : Option (String × String) :=
  match maxByDepth (crates.filter (fun e => startsWith e.1 p)) with
  | some e => some e.2
  | none =>
    match p with
    | [] => none
    | _ :: _ => nearestManifestF fs fuel p.dropLast

/-- The label applied to a file at the composition call site
(src/main.rs lines 104-105): the resolved record, or the explicit
unknown sentinel. -/
def resolveLabel (p : Path) (crates : CrateMap) (fs : ManifestFS) : String × String :=
  (crate_for_path p crates fs).getD ("unknown_crate", "?")

/-- Embedding of `filter_entry` (src/main.rs lines 200-209): reject any
entry whose file name is in the built-in deny list. -/
def filter_entry (name : String) : Bool :=
  !(["target", ".git", "node_modules"].any (fun d => d == name))

/-- One entry yielded by the walker, as a path relative to the walk
root plus whether it is a regular file. -/
structure FSEntry where
  path : Path
  isFile : Bool
deriving DecidableEq

/-- The walker collaborator composed with the in-repo `filter_entry`
predicate (src/main.rs lines 60-67): `WalkBuilder::filter_entry` yields
an entry only if the predicate holds on it and on every ancestor below
the root (recursion halts at a rejected directory), so an entry
survives exactly when every component of its relative path passes;
`ignored` is the gitignore oracle of the walker. -/
def walkedEntries (ignored : Path → Bool) (entries : List FSEntry) : List FSEntry :=
  entries.filter (fun e => e.path.all filter_entry && !(ignored e.path))

/-- Auxiliary for `extensionOf`: the characters after the last dot, or
`none` when no dot occurs. -/
def lastDotSplit : List Char → Option (List Char)
  | [] => none
  | c :: rest =>
    match lastDotSplit rest with
    | some e => some e
    | none => if c = '.' then some rest else none

/-- Embedding of Rust `Path::extension` on a file name: `none` when
there is no dot, or when the name begins with a dot and has no other
dot; otherwise the portion after the final dot. -/
def extensionOf (name : String) : Option String :=
  match name.toList with
  | [] => none
  | c :: rest =>
    if c = '.' then (lastDotSplit rest).map (fun e => String.mk e)
    else (lastDotSplit (c :: rest)).map (fun e => String.mk e)

/-- The per-entry candidate decision of the walk loop (src/main.rs
lines 78-95): skip non-files; always include a file named Cargo.toml;
otherwise gate on the extension allow-list. -/
def selectEntry (exts : List String) (e : FSEntry) : Option Path :=
  if !e.isFile then none
  else if e.path.getLastD "" = "Cargo.toml" then some e.path
  else
    match extensionOf (e.path.getLastD "") with
    | some ext => if exts.any (fun x => x == ext) then some e.path else none
    | none => none

/-- The `wanted` list accumulated by the walk loop, before sorting. -/
def wantedOf (exts : List String) (entries : List FSEntry) : List Path :=
  entries.filterMap (selectEntry exts)

/-- Embedding of the parsed command line (src/main.rs lines 31-44). -/
structure Opts where
  dir : Path
  exts : List String
  no_clipboard : Bool

/-- Default extension handling (src/main.rs lines 48-52). -/
def effectiveExts (exts : List String) : List String :=
  if exts.isEmpty then ["rs", "toml"] else exts

/-- Everything the program consumes from outside: walker output and
gitignore oracle, cargo-metadata result, manifest reading, file
reading, the two fallible clipboard steps (`Clipboard::new` and
`set_text`), and whether the root is under version control — a fact of
the environment that, notably, no line of src/main.rs ever consults. -/
structure Env where
  entries : List FSEntry
  ignored : Path → Bool
  ws : Except String (List WsPkg)
  fs : ManifestFS
  readFile : Path → Except String String
  clipboardNew : Except String Unit
  setText : String → Except String Unit
  rootUnderVcs : Bool

/-- Observable output of one run: text printed to stdout, warning lines
printed to stderr, and texts successfully written to the clipboard. -/
structure Trace where
  stdout : String
  stderr : List String
  clipboard : List String
deriving DecidableEq

/-- Embedding of `PathBuf` comparison plus `wanted.sort()` (src/main.rs
line 98): sort paths ascending in componentwise lexicographic order. -/
def sortPaths (l : List Path) : List Path :=
  List.insertionSort (fun a b => a ≤ b) l

/-- Embedding of `strip_prefix(&opts.dir).unwrap_or(path)` (src/main.rs
line 107). -/
def stripRoot (root : Path) (p : Path) : Path :=
  if startsWith root p then p.drop root.length else p

/-- Concatenation of a list of strings, in order. -/
def concatList : List String → String
  | [] => ""
  | s :: rest => s ++ concatList rest

/-- One rendered bundle section (src/main.rs lines 104-113): the header
line, a newline, the file content, a trailing newline. -/
def sectionFor (root : Path) (crates : CrateMap) (fs : ManifestFS) (p : Path) (content : String) : String :=
  let nv := resolveLabel p crates fs
  "=== " ++ nv.1 ++ " v" ++ nv.2 ++ " :: " ++ String.intercalate "/" (stripRoot root p) ++
    " ===\n" ++ content ++ "\n"

/-- The composition loop (src/main.rs lines 101-114): append one
section per path in order; a failed read aborts with a contextualized
error, exactly as the `?` on `fs::read_to_string` does. -/
def composeOut (root : Path) (crates : CrateMap) (fs : ManifestFS)
    (readF : Path → Except String String) : List Path → String → Except String String
  | [], acc => Except.ok acc
  | p :: rest, acc =>
    match readF p with
    | Except.ok content =>
        composeOut root crates fs readF rest (acc ++ sectionFor root crates fs p content)
    | Except.error e =>
        Except.error ("reading " ++ String.intercalate "/" (stripRoot root p) ++ ": " ++ e)

/-- The walker paths that survive pruning and candidate selection, made
absolute (the walker yields paths below `opts.dir`). -/
def wantedAbs (opts : Opts) (env : Env) : List Path :=
  (wantedOf (effectiveExts opts.exts) (walkedEntries env.ignored env.entries)).map
    (fun p => opts.dir ++ p)

/-- The sorted candidate list fed to the composition loop. -/
def sortedWanted (opts : Opts) (env : Env) : List Path :=
  sortPaths (wantedAbs opts env)

/-- Embedding of `main` (src/main.rs lines 46-130): build the crate
map, enumerate and sort candidates, compose the bundle, then deliver it
to stdout or to the clipboard, with the stdout fallback when the
clipboard cannot be acquired. -/
def run (opts : Opts) (env : Env) : Trace × Except String Unit :=
  match crate_map env.ws env.fs opts.dir with
  | Except.error e => (⟨"", [], []⟩, Except.error e)
  | Except.ok crates =>
    match composeOut opts.dir crates env.fs env.readFile (sortedWanted opts env) "" with
    | Except.error e => (⟨"", [], []⟩, Except.error e)
    | Except.ok out =>
      if opts.no_clipboard then (⟨out, [], []⟩, Except.ok ())
      else
        match env.clipboardNew with
        | Except.ok _ =>
          (match env.setText out with
           | Except.ok _ => (⟨"", [], [out]⟩, Except.ok ())
           | Except.error e => (⟨"", [], []⟩, Except.error e))
        | Except.error e =>
          (⟨out, ["clipboard unavailable (" ++ e ++ "); printing to stdout"], []⟩, Except.ok ())

/-- Manifest collaborator with no manifest anywhere. -/
def fsEmpty : ManifestFS := ⟨fun _ => false, fun _ => Except.ok none⟩

/-- Manifest collaborator where a manifest file exists in every directory
but never parses. -/
def fsBadRoot : ManifestFS := ⟨fun _ => true, fun _ => Except.error "malformed manifest"⟩

/-- Options selecting clipboard delivery with the current directory as root. -/
def optsClipboard : Opts := ⟨[], [], false⟩

/-- Options selecting stdout delivery with the current directory as root. -/
def optsStdout : Opts := ⟨[], [], true⟩

/-- Options selecting stdout delivery with root directory `r`. -/
def optsRootR : Opts := ⟨["r"], [], true⟩

/-- Environment whose clipboard write fails after successful acquisition. -/
def envSetTextFails : Env :=
  ⟨[], fun _ => false, Except.error "no metadata", fsEmpty, fun _ => Except.ok "",
    Except.ok (), fun _ => Except.error "set text failed", true⟩

/-- Environment where acquiring the clipboard fails. -/
def envClipAcquireFails : Env :=
  ⟨[], fun _ => false, Except.error "no metadata", fsEmpty, fun _ => Except.ok "",
    Except.error "no display", fun _ => Except.ok (), true⟩

/-- Environment whose root is not under version control. -/
def envNoVcs : Env :=
  ⟨[], fun _ => false, Except.error "no metadata", fsEmpty, fun _ => Except.ok "",
    Except.ok (), fun _ => Except.ok (), false⟩

/-- Environment with one readable source file under `src`. -/
def envOneFile : Env :=
  ⟨[⟨["src", "main.rs"], true⟩], fun _ => false, Except.error "no metadata", fsEmpty,
    fun _ => Except.ok "content", Except.ok (), fun _ => Except.ok (), true⟩

/-- Environment with one source file whose read fails. -/
def envReadFails : Env :=
  ⟨[⟨["main.rs"], true⟩], fun _ => false, Except.error "no metadata", fsEmpty,
    fun _ => Except.error "gone", Except.ok (), fun _ => Except.ok (), true⟩

/-- Crate map with two nested keys: `r` and its child `r/x`. -/
def cratesNested : CrateMap := [(["r"], "a", "1.0.0"), (["r", "x"], "b", "2.0.0")]

/-! Helper lemmas about the embedded operations. -/

theorem startsWith_refl (a : Path) : startsWith a a = true := by
  induction a with
  | nil => rfl
  | cons x xs ih => simp [startsWith, ih]

theorem startsWith_append (a t : Path) : startsWith a (a ++ t) = true := by
  induction a with
  | nil => rfl
  | cons x xs ih => simp [startsWith, ih]

theorem startsWith_length : ∀ (a p : Path), startsWith a p = true → a.length ≤ p.length := by
  intro a
  induction a with
  | nil => intro p _; simp
  | cons x xs ih =>
    intro p h
    cases p with
    | nil => simp [startsWith] at h
    | cons y ys =>
      simp only [startsWith, Bool.and_eq_true] at h
      simpa [List.length_cons] using Nat.succ_le_succ (ih ys h.2)

theorem startsWith_trans : ∀ (a b c : Path),
    startsWith a b = true → startsWith b c = true → startsWith a c = true := by
  intro a
  induction a with
  | nil => intro b c _ _; rfl
  | cons x xs ih =>
    intro b c hab hbc
    cases b with
    | nil => simp [startsWith] at hab
    | cons y ys =>
      cases c with
      | nil => simp [startsWith] at hbc
      | cons z zs =>
        simp only [startsWith, Bool.and_eq_true, beq_iff_eq] at hab hbc ⊢
        exact ⟨hab.1.trans hbc.1, ih ys zs hab.2 hbc.2⟩

theorem startsWith_dropLast : ∀ (p : Path), startsWith p.dropLast p = true := by
  intro p
  induction p with
  | nil => rfl
  | cons x xs ih =>
    cases xs with
    | nil => rfl
    | cons y ys =>
      show startsWith (x :: (y :: ys).dropLast) (x :: y :: ys) = true
      simp [startsWith, ih]

theorem startsWith_eq_of_length : ∀ (p a b : Path),
    startsWith a p = true → startsWith b p = true → a.length = b.length → a = b := by
  intro p
  induction p with
  | nil =>
    intro a b ha hb _
    cases a with
    | nil =>
      cases b with
      | nil => rfl
      | cons y ys => simp [startsWith] at hb
    | cons x xs => simp [startsWith] at ha
  | cons z zs ih =>
    intro a b ha hb hlen
    cases a with
    | nil =>
      cases b with
      | nil => rfl
      | cons y ys => simp at hlen
    | cons x xs =>
      cases b with
      | nil => simp at hlen
      | cons y ys =>
        simp only [startsWith, Bool.and_eq_true, beq_iff_eq] at ha hb
        simp only [List.length_cons, Nat.succ.injEq] at hlen
        rw [ha.1, hb.1, ih xs ys ha.2 hb.2 hlen]

theorem maxByDepth_cons_none (a : Path × String × String) (rest : List (Path × String × String))
    (h : maxByDepth rest = none) : maxByDepth (a :: rest) = some a := by
  unfold maxByDepth
  rw [h]

theorem maxByDepth_cons_some (a f : Path × String × String) (rest : List (Path × String × String))
    (h : maxByDepth rest = some f) :
    maxByDepth (a :: rest) = if f.1.length ≥ a.1.length then some f else some a := by
  unfold maxByDepth
  rw [h]

theorem maxByDepth_isSome : ∀ (l : List (Path × String × String)),
    l ≠ [] → ∃ e, maxByDepth l = some e := by
  intro l hne
  cases l with
  | nil => exact absurd rfl hne
  | cons a rest =>
    cases hr : maxByDepth rest with
    | none => exact ⟨a, maxByDepth_cons_none a rest hr⟩
    | some f =>
      by_cases hge : f.1.length ≥ a.1.length
      · exact ⟨f, by rw [maxByDepth_cons_some a f rest hr, if_pos hge]⟩
      · exact ⟨a, by rw [maxByDepth_cons_some a f rest hr, if_neg hge]⟩

theorem maxByDepth_mem : ∀ (l : List (Path × String × String)) (e : Path × String × String),
    maxByDepth l = some e → e ∈ l := by
  intro l
  induction l with
  | nil => intro e h; simp [maxByDepth] at h
  | cons a rest ih =>
    intro e h
    cases hr : maxByDepth rest with
    | none =>
      rw [maxByDepth_cons_none a rest hr] at h
      have ha : a = e := Option.some_inj.mp h
      exact List.mem_cons.mpr (Or.inl ha.symm)
    | some f =>
      rw [maxByDepth_cons_some a f rest hr] at h
      by_cases hge : f.1.length ≥ a.1.length
      · rw [if_pos hge] at h
        have hf : f = e := Option.some_inj.mp h
        exact List.mem_cons.mpr (Or.inr (hf ▸ ih f hr))
      · rw [if_neg hge] at h
        have ha : a = e := Option.some_inj.mp h
        exact List.mem_cons.mpr (Or.inl ha.symm)

theorem maxByDepth_le : ∀ (l : List (Path × String × String)) (e : Path × String × String),
    maxByDepth l = some e → ∀ f ∈ l, f.1.length ≤ e.1.length := by
  intro l
  induction l with
  | nil => intro e _ f hf; simp at hf
  | cons a rest ih =>
    intro e h f hf
    cases hr : maxByDepth rest with
    | none =>
      rw [maxByDepth_cons_none a rest hr] at h
      have ha : a = e := Option.some_inj.mp h
      have hrest : rest = [] := by
        cases rest with
        | nil => rfl
        | cons b bs =>
          exfalso
          rcases maxByDepth_isSome (b :: bs) (by simp) with ⟨g, hg⟩
          rw [hg] at hr
          cases hr
      rcases List.mem_cons.mp hf with rfl | hf2
      · rw [← ha]
      · rw [hrest] at hf2; simp at hf2
    | some g =>
      rw [maxByDepth_cons_some a g rest hr] at h
      rcases List.mem_cons.mp hf with rfl | hf2
      · by_cases hge : g.1.length ≥ f.1.length
        · rw [if_pos hge] at h
          rw [← Option.some_inj.mp h]
          exact hge
        · rw [if_neg hge] at h
          rw [← Option.some_inj.mp h]
      · have hle := ih g hr f hf2
        by_cases hge : g.1.length ≥ a.1.length
        · rw [if_pos hge] at h
          rw [← Option.some_inj.mp h]
          exact hle
        · rw [if_neg hge] at h
          rw [← Option.some_inj.mp h]
          exact hle.trans (Nat.le_of_not_le hge)

theorem eq_of_keys_nodup : ∀ (m : CrateMap),
    (m.map (fun e => e.1)).Nodup →
    ∀ x ∈ m, ∀ y ∈ m, x.1 = y.1 → x = y := by
  intro m
  induction m with
  | nil => intro _ x hx; simp at hx
  | cons a rest ih =>
    intro hnd x hx y hy hxy
    simp only [List.map_cons, List.nodup_cons] at hnd
    rcases List.mem_cons.mp hx with rfl | hx2
    · rcases List.mem_cons.mp hy with rfl | hy2
      · rfl
      · exact absurd (List.mem_map.mpr ⟨y, hy2, hxy.symm⟩) hnd.1
    · rcases List.mem_cons.mp hy with rfl | hy2
      · exact absurd (List.mem_map.mpr ⟨x, hx2, hxy⟩) hnd.1
      · exact ih hnd.2 x hx2 y hy2 hxy

theorem nearestManifest_eq_none (fs : ManifestFS) : ∀ (dir : Path),
    (∀ q, startsWith q dir = true → fs.maniExists q = false) →
    nearestManifest fs dir = none := by
  intro dir
  induction dir using List.reverseRecOn with
  | nil =>
    intro h
    rw [nearestManifest]
    simp [manifestPackageAt, h [] rfl]
  | append_singleton xs x ih =>
    intro h
    rw [nearestManifest]
    have hex : fs.maniExists (xs ++ [x]) = false := h _ (startsWith_refl _)
    have hne : xs ++ [x] ≠ [] := by simp
    simp only [manifestPackageAt, hex, Bool.false_eq_true, if_false, dif_neg hne,
      List.dropLast_concat]
    exact ih (fun q hq => h q (startsWith_trans q xs (xs ++ [x]) hq (startsWith_append xs [x])))

theorem nearestManifestF_eq (fs : ManifestFS) : ∀ (n : Nat) (dir : Path),
    dir.length < n → nearestManifestF fs n dir = nearestManifest fs dir := by
  intro n
  induction n with
  | zero => intro dir h; exact absurd h (Nat.not_lt_zero _)
  | succ n ih =>
    intro dir h
    rw [nearestManifest]
    simp only [nearestManifestF]
    cases hmp : manifestPackageAt fs dir with
    | some r => rfl
    | none =>
      by_cases hd : dir = []
      · simp [hd]
      · simp only [if_neg hd, dif_neg hd]
        refine ih dir.dropLast ?_
        have h1 : 0 < dir.length := List.length_pos.mpr hd
        have h2 : dir.dropLast.length = dir.length - 1 := List.length_dropLast dir
        omega

theorem composeOut_all_ok (root : Path) (crates : CrateMap) (fs : ManifestFS)
    (readF : Path → Except String String) (contentOf : Path → String) :
    ∀ (L : List Path), (∀ p ∈ L, readF p = Except.ok (contentOf p)) →
    ∀ acc, composeOut root crates fs readF L acc =
      Except.ok (acc ++ concatList (L.map (fun p => sectionFor root crates fs p (contentOf p)))) := by
  intro L
  induction L with
  | nil =>
    intro _ acc
    simp [composeOut, concatList, String.append_empty]
  | cons p rest ih =>
    intro h acc
    have hp : readF p = Except.ok (contentOf p) := h p (List.mem_cons_self p rest)
    have hrest : ∀ q ∈ rest, readF q = Except.ok (contentOf q) :=
      fun q hq => h q (List.mem_cons_of_mem p hq)
    simp only [composeOut, hp]
    rw [ih hrest (acc ++ sectionFor root crates fs p (contentOf p))]
    simp [concatList, String.append_assoc]

theorem composeOut_error_of_mem (root : Path) (crates : CrateMap) (fs : ManifestFS)
    (readF : Path → Except String String) (p : Path) (e : String) :
    ∀ (L : List Path), p ∈ L → readF p = Except.error e →
    ∀ acc, ∃ e', composeOut root crates fs readF L acc = Except.error e' := by
  intro L
  induction L with
  | nil => intro h; simp at h
  | cons q rest ih =>
    intro hmem herr acc
    cases hq : readF q with
    | error e2 =>
      refine ⟨"reading " ++ String.intercalate "/" (stripRoot root q) ++ ": " ++ e2, ?_⟩
      simp [composeOut, hq]
    | ok c =>
      have hp : p ∈ rest := by
        rcases List.mem_cons.mp hmem with rfl | h2
        · rw [herr] at hq; cases hq
        · exact h2
      simpa [composeOut, hq] using ih hp herr (acc ++ sectionFor root crates fs q c)

theorem mem_sortPaths {q : Path} {l : List Path} : q ∈ sortPaths l ↔ q ∈ l :=
  (List.perm_insertionSort (fun a b => a ≤ b) l).mem_iff

theorem selectEntry_not_file (exts : List String) (e : FSEntry) (h : e.isFile = false) :
    selectEntry exts e = none := by
  unfold selectEntry
  rw [h]
  rfl

theorem selectEntry_manifest (exts : List String) (e : FSEntry) (hf : e.isFile = true)
    (hn : e.path.getLastD "" = "Cargo.toml") : selectEntry exts e = some e.path := by
  unfold selectEntry
  rw [hf, if_pos hn]
  rfl

theorem selectEntry_no_ext (exts : List String) (e : FSEntry) (hf : e.isFile = true)
    (hn : ¬ e.path.getLastD "" = "Cargo.toml")
    (hx : extensionOf (e.path.getLastD "") = none) : selectEntry exts e = none := by
  unfold selectEntry
  rw [hf, if_neg hn, hx]
  rfl

theorem selectEntry_ext (exts : List String) (e : FSEntry) (x : String) (hf : e.isFile = true)
    (hn : ¬ e.path.getLastD "" = "Cargo.toml")
    (hx : extensionOf (e.path.getLastD "") = some x) :
    selectEntry exts e = if exts.any (fun y => y == x) then some e.path else none := by
  unfold selectEntry
  rw [hf, if_neg hn, hx]
  rfl

theorem selectEntry_eq_some_iff (exts : List String) (e : FSEntry) (p : Path) :
    selectEntry exts e = some p ↔
      e.path = p ∧ e.isFile = true ∧
        (e.path.getLastD "" = "Cargo.toml" ∨
          ∃ x, extensionOf (e.path.getLastD "") = some x ∧ x ∈ exts) := by
  constructor
  · intro h
    have hf : e.isFile = true := by
      cases hfb : e.isFile with
      | false => rw [selectEntry_not_file exts e hfb] at h; exact Option.noConfusion h
      | true => rfl
    by_cases hn : e.path.getLastD "" = "Cargo.toml"
    · rw [selectEntry_manifest exts e hf hn] at h
      exact ⟨Option.some_inj.mp h, hf, Or.inl hn⟩
    · cases hx : extensionOf (e.path.getLastD "") with
      | none => rw [selectEntry_no_ext exts e hf hn hx] at h; exact Option.noConfusion h
      | some x =>
        rw [selectEntry_ext exts e x hf hn hx] at h
        by_cases hm : exts.any (fun y => y == x) = true
        · rw [if_pos hm] at h
          have hxm : x ∈ exts := by
            rcases List.any_eq_true.mp hm with ⟨y, hy, hyx⟩
            exact (beq_iff_eq.mp hyx) ▸ hy
          exact ⟨Option.some_inj.mp h, hf, Or.inr ⟨x, rfl, hxm⟩⟩
        · rw [if_neg hm] at h; exact Option.noConfusion h
  · rintro ⟨hp, hf, hcond⟩
    rcases hcond with hn | ⟨x, hx, hxm⟩
    · rw [selectEntry_manifest exts e hf hn, hp]
    · by_cases hn : e.path.getLastD "" = "Cargo.toml"
      · rw [selectEntry_manifest exts e hf hn, hp]
      · have hm : exts.any (fun y => y == x) = true :=
          List.any_eq_true.mpr ⟨x, hxm, beq_iff_eq.mpr rfl⟩
        rw [selectEntry_ext exts e x hf hn hx, if_pos hm, hp]

theorem selectEntry_path (exts : List String) (e : FSEntry) (p : Path)
    (h : selectEntry exts e = some p) : e.path = p :=
  ((selectEntry_eq_some_iff exts e p).mp h).1

/-! Claim C1. -/

/-- C1: the claim states that when a manifest exists at the root, the root
is not already an index key, and single-package parsing fails, the whole run
fails with a fatal error propagating out of index construction. In the code
the parse failure is swallowed by `if let Ok(mani)`: at this input the parse
fails yet `crate_map` returns `Ok` with an empty index. -/
theorem c1_counterexample :
    fsBadRoot.maniExists [] = true ∧
    containsKey (wsMap (Except.error "no metadata")) [] = false ∧
    fsBadRoot.parseManifest [] = Except.error "malformed manifest" ∧
    crate_map (Except.error "no metadata") fsBadRoot [] = Except.ok [] :=
  ⟨rfl, rfl, rfl, rfl⟩

/-- C1 (amended): when a manifest file exists at the root, the root is not
already an index key, and parsing it in single-package mode fails, index
construction does not fail: the parse error is silently dropped and
`crate_map` returns `Ok` with the workspace-only map. -/
theorem c1_amended_thm : ∀ (ws : Except String (List WsPkg)) (fs : ManifestFS)
    (root : Path) (e : String),
    fs.maniExists root = true →
    containsKey (wsMap ws) root = false →
    fs.parseManifest root = Except.error e →
    crate_map ws fs root = Except.ok (wsMap ws) := by
  intro ws fs root e h1 h2 h3
  simp [crate_map, crate_map_build, h1, h2, h3]

/-- C1 witness: the amended claim instantiated at a concrete failing parse. -/
theorem c1_witness :
    fsBadRoot.maniExists ["root"] = true ∧
    containsKey (wsMap (Except.error "no metadata")) ["root"] = false ∧
    fsBadRoot.parseManifest ["root"] = Except.error "malformed manifest" ∧
    crate_map (Except.error "no metadata") fsBadRoot ["root"] =
      Except.ok (wsMap (Except.error "no metadata")) :=
  ⟨rfl, rfl, rfl,
    c1_amended_thm (Except.error "no metadata") fsBadRoot ["root"] "malformed manifest"
      rfl rfl rfl⟩

/-! Claim C2. -/

/-- C2: the claim states that every clipboard delivery failure (acquiring
the clipboard or writing the text) is non-fatal with a stdout fallback. In
the code only `Clipboard::new` failures fall back; a `set_text` failure
propagates through `?`: at this input the write to the acquired clipboard
fails and the run returns an error with nothing printed. -/
theorem c2_counterexample :
    run optsClipboard envSetTextFails = (⟨"", [], []⟩, Except.error "set text failed") := rfl

/-- C2 (amended): a clipboard acquisition failure is non-fatal — a warning
goes to stderr and the already-composed text to stdout — but when the
clipboard is acquired and writing the text to it fails, the run fails with
that error and nothing is printed. -/
theorem c2_amended_thm : ∀ (opts : Opts) (env : Env) (out : String),
    opts.no_clipboard = false →
    composeOut opts.dir (crate_map_build env.ws env.fs opts.dir) env.fs env.readFile
      (sortedWanted opts env) "" = Except.ok out →
    (∀ e, env.clipboardNew = Except.error e →
      run opts env =
        (⟨out, ["clipboard unavailable (" ++ e ++ "); printing to stdout"], []⟩, Except.ok ())) ∧
    (∀ e, env.clipboardNew = Except.ok () → env.setText out = Except.error e →
      run opts env = (⟨"", [], []⟩, Except.error e)) := by
  intro opts env out h1 h2
  constructor
  · intro e he
    simp [run, crate_map, h2, h1, he]
  · intro e hok herr
    simp [run, crate_map, h2, h1, hok, herr]

/-- C2 witness: the amended fallback branch at a concrete environment whose
clipboard cannot be acquired. -/
theorem c2_witness :
    run optsClipboard envClipAcquireFails =
      (⟨"", ["clipboard unavailable (" ++ "no display" ++ "); printing to stdout"], []⟩,
        Except.ok ()) :=
  (c2_amended_thm optsClipboard envClipAcquireFails "" rfl rfl).1 "no display" rfl

/-! Claim C8. -/

/-- C8: the claim states that the program exits non-zero with a diagnostic
when the root directory is not under version control; the code contains no
version-control check at all: in an environment whose root is not under
version control the run completes successfully with empty stderr. -/
theorem c8_counterexample :
    envNoVcs.rootUnderVcs = false ∧ run optsStdout envNoVcs = (⟨"", [], []⟩, Except.ok ()) :=
  ⟨rfl, rfl⟩

/-- C8 (amended): the program performs no version-control check: its
observable behavior is identical whether or not the root is under version
control, so a root outside version control does not by itself cause a
non-zero exit or a diagnostic. -/
theorem c8_amended_thm : ∀ (opts : Opts) (ents : List FSEntry) (ign : Path → Bool)
    (ws : Except String (List WsPkg)) (fs : ManifestFS) (rf : Path → Except String String)
    (cn : Except String Unit) (st : String → Except String Unit) (b b' : Bool),
    run opts ⟨ents, ign, ws, fs, rf, cn, st, b⟩ = run opts ⟨ents, ign, ws, fs, rf, cn, st, b'⟩ := by
  intro opts ents ign ws fs rf cn st b b'
  rfl

/-! Claim C3. -/

/-- C3: for a file path under two index keys where one key directory is an
ancestor of the other, the resolver returns the record of the deeper key:
among all index keys that are prefixes of the path, the one with the
greatest path-depth is selected. -/
theorem c3_thm : ∀ (p : Path) (crates : CrateMap) (fs : ManifestFS) (a b : Path)
    (ra rb : String × String),
    (crates.map (fun e => e.1)).Nodup →
    (a, ra) ∈ crates → (b, rb) ∈ crates →
    startsWith a p = true → startsWith b p = true →
    a.length < b.length →
    (∀ e ∈ crates, startsWith e.1 p = true → e.1.length ≤ b.length) →
    crate_for_path p crates fs = some rb := by
  intro p crates fs a b ra rb hnd ha hb hsa hsb hab hmax
  have hbl : (b, rb) ∈ crates.filter (fun e => startsWith e.1 p) :=
    List.mem_filter.mpr ⟨hb, hsb⟩
  have hne : crates.filter (fun e => startsWith e.1 p) ≠ [] := by
    intro h0
    rw [h0] at hbl
    exact absurd hbl (List.not_mem_nil _)
  obtain ⟨m, hm⟩ := maxByDepth_isSome _ hne
  have hmem := maxByDepth_mem _ m hm
  have hmc := List.mem_filter.mp hmem
  have h1 : b.length ≤ m.1.length := maxByDepth_le _ m hm (b, rb) hbl
  have h2 : m.1.length ≤ b.length := hmax m hmc.1 hmc.2
  have hkey : m.1 = b := startsWith_eq_of_length p m.1 b hmc.2 hsb (Nat.le_antisymm h2 h1)
  have hmb : m = (b, rb) := eq_of_keys_nodup crates hnd m hmc.1 (b, rb) hb hkey
  unfold crate_for_path
  rw [hm, hmb]

/-- C3 witness: the deeper of two nested keys wins at a concrete path. -/
theorem c3_witness :
    (cratesNested.map (fun e => e.1)).Nodup ∧
    crate_for_path ["r", "x", "f.rs"] cratesNested fsEmpty = some ("b", "2.0.0") :=
  ⟨by decide,
    c3_thm ["r", "x", "f.rs"] cratesNested fsEmpty ["r"] ["r", "x"] ("a", "1.0.0")
      ("b", "2.0.0") (by decide) (by decide) (by decide) (by decide) (by decide)
      (by decide) (by decide)⟩

/-! Claim C5. -/

/-- C5: a file path matching no package-index key and with no manifest file
in any ancestor directory resolves to the explicit unknown sentinel
(`unknown_crate`, `?`) rather than an error. -/
theorem c5_thm : ∀ (p : Path) (crates : CrateMap) (fs : ManifestFS),
    (∀ e ∈ crates, startsWith e.1 p = false) →
    (∀ q, startsWith q p = true → q ≠ p → fs.maniExists q = false) →
    resolveLabel p crates fs = ("unknown_crate", "?") := by
  intro p crates fs hkeys hmani
  have hfil : crates.filter (fun e => startsWith e.1 p) = [] :=
    List.filter_eq_nil_iff.mpr (fun e he => by simp [hkeys e he])
  have hcfp : crate_for_path p crates fs = none := by
    unfold crate_for_path
    rw [hfil]
    cases p with
    | nil => rfl
    | cons x xs =>
      show nearestManifest fs ((x :: xs).dropLast) = none
      apply nearestManifest_eq_none
      intro q hq
      have hq1 : startsWith q (x :: xs) = true :=
        startsWith_trans q ((x :: xs).dropLast) (x :: xs) hq (startsWith_dropLast (x :: xs))
      have hlen : q.length ≤ ((x :: xs).dropLast).length := startsWith_length q _ hq
      have hlt : q.length < (x :: xs).length := by
        rw [List.length_dropLast] at hlen
        simp only [List.length_cons] at hlen ⊢
        omega
      have hne : q ≠ x :: xs := by
        intro hqe
        rw [hqe] at hlt
        exact Nat.lt_irrefl _ hlt
      exact hmani q hq1 hne
  simp [resolveLabel, hcfp]

/-- C5 witness: the sentinel at a concrete path with an empty index and no
manifests anywhere. -/
theorem c5_witness : resolveLabel ["a", "b.rs"] [] fsEmpty = ("unknown_crate", "?") :=
  c5_thm ["a", "b.rs"] [] fsEmpty (fun e he => absurd he (List.not_mem_nil e))
    (fun _ _ _ => rfl)

/-! Claim C9. -/

/-- C9: package resolution terminates within the depth of the path's parent
chain — the fuel-bounded climb with fuel equal to the path's length agrees
with the unbounded resolver — and resolution always produces a value: the
explicit sentinel when the resolver finds nothing, the found record
otherwise; no error is propagated. -/
theorem c9_thm : ∀ (p : Path) (crates : CrateMap) (fs : ManifestFS),
    crate_for_pathF p crates fs p.length = crate_for_path p crates fs ∧
    (resolveLabel p crates fs = ("unknown_crate", "?") ∨
      ∃ r, crate_for_path p crates fs = some r ∧ resolveLabel p crates fs = r) := by
  intro p crates fs
  constructor
  · unfold crate_for_pathF crate_for_path
    cases hmax : maxByDepth (crates.filter (fun e => startsWith e.1 p)) with
    | some e => rfl
    | none =>
      cases p with
      | nil => rfl
      | cons x xs =>
        show nearestManifestF fs (x :: xs).length ((x :: xs).dropLast) =
          nearestManifest fs ((x :: xs).dropLast)
        apply nearestManifestF_eq
        rw [List.length_dropLast]
        simp
  · cases hc : crate_for_path p crates fs with
    | none => exact Or.inl (by simp [resolveLabel, hc])
    | some r => exact Or.inr ⟨r, rfl, by simp [resolveLabel, hc]⟩

/-! Claim C4. -/

/-- C4: when every read succeeds, the composed output is exactly the
concatenation, in ascending lexicographic path order, of one section per
included candidate file — a header line of the exact shape
`=== name vversion :: relative-path ===` followed by a newline, the
verbatim file content, and a trailing newline, with no separator between
sections; the composed sequence is a sorted permutation of the candidate
files. -/
theorem c4_thm : ∀ (opts : Opts) (env : Env) (contentOf : Path → String),
    (∀ p ∈ sortedWanted opts env, env.readFile p = Except.ok (contentOf p)) →
    composeOut opts.dir (crate_map_build env.ws env.fs opts.dir) env.fs env.readFile
      (sortedWanted opts env) "" =
      Except.ok (concatList ((sortedWanted opts env).map (fun p =>
        "=== " ++ (resolveLabel p (crate_map_build env.ws env.fs opts.dir) env.fs).1 ++
        " v" ++ (resolveLabel p (crate_map_build env.ws env.fs opts.dir) env.fs).2 ++
        " :: " ++ String.intercalate "/" (stripRoot opts.dir p) ++ " ===\n" ++
        contentOf p ++ "\n"))) ∧
    List.Sorted (fun a b => a ≤ b) (sortedWanted opts env) ∧
    (sortedWanted opts env).Perm (wantedAbs opts env) := by
  intro opts env contentOf hread
  refine ⟨?_, ?_, ?_⟩
  · have h := composeOut_all_ok opts.dir (crate_map_build env.ws env.fs opts.dir) env.fs
      env.readFile contentOf (sortedWanted opts env) hread ""
    rw [h, String.empty_append]
    rfl
  · unfold sortedWanted sortPaths
    exact List.sorted_insertionSort _ _
  · unfold sortedWanted sortPaths
    exact List.perm_insertionSort _ _

/-- C4 witness: the composed bundle of one readable file. -/
theorem c4_witness :
    composeOut optsStdout.dir (crate_map_build envOneFile.ws envOneFile.fs optsStdout.dir)
      envOneFile.fs envOneFile.readFile (sortedWanted optsStdout envOneFile) "" =
      Except.ok (concatList ((sortedWanted optsStdout envOneFile).map (fun p =>
        "=== " ++
        (resolveLabel p (crate_map_build envOneFile.ws envOneFile.fs optsStdout.dir)
          envOneFile.fs).1 ++
        " v" ++
        (resolveLabel p (crate_map_build envOneFile.ws envOneFile.fs optsStdout.dir)
          envOneFile.fs).2 ++
        " :: " ++ String.intercalate "/" (stripRoot optsStdout.dir p) ++ " ===\n" ++
        "content" ++ "\n"))) ∧
    List.Sorted (fun a b => a ≤ b) (sortedWanted optsStdout envOneFile) ∧
    (sortedWanted optsStdout envOneFile).Perm (wantedAbs optsStdout envOneFile) :=
  c4_thm optsStdout envOneFile (fun _ => "content") (fun _ _ => rfl)

/-! Claim C6. -/

/-- C6: a walked regular file is a candidate exactly when its filename is
`Cargo.toml` or its extension belongs to the allow-list; in particular a
`Cargo.toml` is a candidate even when no toml-like extension is in the
list, and a file that is not named `Cargo.toml` and whose extension is
missing or outside the list is never a candidate. -/
theorem c6_thm : ∀ (exts : List String) (entries : List FSEntry) (p : Path),
    p ∈ wantedOf exts entries ↔
      ∃ e ∈ entries, e.path = p ∧ e.isFile = true ∧
        (p.getLastD "" = "Cargo.toml" ∨
          ∃ x, extensionOf (p.getLastD "") = some x ∧ x ∈ exts) := by
  intro exts entries p
  unfold wantedOf
  rw [List.mem_filterMap]
  constructor
  · rintro ⟨e, he, hsel⟩
    obtain ⟨hp, hf, hcond⟩ := (selectEntry_eq_some_iff exts e p).mp hsel
    exact ⟨e, he, hp, hf, by rw [← hp]; exact hcond⟩
  · rintro ⟨e, he, hp, hf, hcond⟩
    exact ⟨e, he, (selectEntry_eq_some_iff exts e p).mpr ⟨hp, hf, by rw [hp]; exact hcond⟩⟩

/-! Claim C7. -/

/-- C7: a failing read during composition is fatal for the whole run: the
run returns an error and neither stdout, stderr, nor the clipboard receives
any partial bundle text. -/
theorem c7_thm : ∀ (opts : Opts) (env : Env) (p : Path) (e : String),
    p ∈ sortedWanted opts env → env.readFile p = Except.error e →
    ∃ e', run opts env = (⟨"", [], []⟩, Except.error e') := by
  intro opts env p e hmem herr
  obtain ⟨e', he'⟩ :=
    composeOut_error_of_mem opts.dir (crate_map_build env.ws env.fs opts.dir) env.fs
      env.readFile p e (sortedWanted opts env) hmem herr ""
  exact ⟨e', by simp [run, crate_map, he']⟩

/-- C7 witness: a selected file whose read fails aborts the run with empty
output. -/
theorem c7_witness :
    (["main.rs"] : Path) ∈ sortedWanted optsStdout envReadFails ∧
    ∃ e', run optsStdout envReadFails = (⟨"", [], []⟩, Except.error e') :=
  ⟨by decide, c7_thm optsStdout envReadFails ["main.rs"] "gone" (by decide) rfl⟩

/-! Claim C10. -/

/-- C10: entries named `target`, `.git` or `node_modules` are pruned from
the walk regardless of file type, and nothing beneath such a directory ever
reaches the bundle: every candidate path fed to composition contains no
such component below the root. -/
theorem c10_thm : ∀ (opts : Opts) (env : Env) (q : Path) (c : String),
    q ∈ sortedWanted opts env → c ∈ q.drop opts.dir.length →
    c ≠ "target" ∧ c ≠ ".git" ∧ c ≠ "node_modules" := by
  intro opts env q c hq hc
  have hq1 : q ∈ wantedAbs opts env := mem_sortPaths.mp hq
  obtain ⟨p, hp, hqe⟩ := List.mem_map.mp hq1
  subst hqe
  rw [List.drop_left] at hc
  obtain ⟨e, he, hsel⟩ := List.mem_filterMap.mp hp
  have hpath : e.path = p := selectEntry_path _ e p hsel
  have hfil := (List.mem_filter.mp he).2
  have hall : e.path.all filter_entry = true := by
    simp only [Bool.and_eq_true] at hfil
    exact hfil.1
  have hcin : c ∈ e.path := by rw [hpath]; exact hc
  have hfe : filter_entry c = true := List.all_eq_true.mp hall c hcin
  have hany : (["target", ".git", "node_modules"].any (fun d => d == c)) = false := by
    cases hb : (["target", ".git", "node_modules"].any (fun d => d == c)) with
    | false => rfl
    | true =>
      unfold filter_entry at hfe
      rw [hb] at hfe
      exact Bool.noConfusion hfe
  have hno : ∀ d ∈ (["target", ".git", "node_modules"] : List String), (d == c) = false := by
    intro d hd
    cases hdb : (d == c) with
    | false => rfl
    | true =>
      have hcontra : (["target", ".git", "node_modules"].any (fun d => d == c)) = true :=
        List.any_eq_true.mpr ⟨d, hd, hdb⟩
      rw [hany] at hcontra
      exact Bool.noConfusion hcontra
  refine ⟨?_, ?_, ?_⟩
  · intro hceq
    have h1 := hno "target" (by simp)
    rw [hceq] at h1
    simp at h1
  · intro hceq
    have h1 := hno ".git" (by simp)
    rw [hceq] at h1
    simp at h1
  · intro hceq
    have h1 := hno "node_modules" (by simp)
    rw [hceq] at h1
    simp at h1

/-- C10 witness: a normal nested source file passes the pruning filter and
its components are none of the denied names. -/
theorem c10_witness :
    (["r", "src", "main.rs"] : Path) ∈ sortedWanted optsRootR envOneFile ∧
    ("src" ≠ "target" ∧ "src" ≠ ".git" ∧ "src" ≠ "node_modules") :=
  ⟨by decide,
    c10_thm optsRootR envOneFile ["r", "src", "main.rs"] "src" (by decide) (by decide)⟩

end CargoQp
